import Mathlib

/-!
# Verification of the dynamic-batch scheduler core

Shallow embedding of `src/src/dynamic_batch_scheduler.h` (Triton-style
`DynamicBatchScheduler`).  The header gives real bodies only for
`InflightInferenceCount` and `Stop`; the remaining operations
(`Enqueue`, `GetDynamicBatch`, `DelegateResponse`, `FinalizeResponses`,
the batcher thread) are declared without bodies, so those are modelled
from the specification, with each such definition marked
`Modelled from the spec:`.
-/

namespace DynBatch

/-- An inference request: identity, priority level, and an abstract
shape-compatibility key (standing for its input tensor shapes and
shape-tensor values, which the scheduler only ever compares for
equality). -/
structure InferenceRequest where
  rid : Nat
  priority : Nat
  shape : Nat
  deriving DecidableEq, Repr

/-- Error kinds surfaced by the scheduler (spec section 7). -/
inductive ErrCode where
  | QueueFull
  | Timeout
  | Unavailable
  | ExecutionFailed
  deriving DecidableEq, Repr

/-- Overflow disposition of a priority level's queue policy. -/
inductive OverflowAction where
  | reject
  | evict
  deriving DecidableEq, Repr

/-- Per-priority-level queue policy: maximum queue length and the
overflow disposition (spec section 4.1). -/
structure ModelQueuePolicy where
  maxQueueSize : Nat
  action : OverflowAction
  deriving DecidableEq, Repr

/-- Configuration of the batch-formation algorithm, mirroring the
scheduler fields `dynamic_batching_enabled_`, `max_batch_size_`,
`preferred_batch_sizes_`, `pending_batch_delay_ns_` and
`enforce_equal_shape_tensors_` (here reduced to whether any tensor is
constrained, since shapes are abstracted to one key). -/
structure BatchConfig where
  dynamicBatchingEnabled : Bool
  maxBatchSize : Nat
  preferredBatchSizes : List Nat
  pendingBatchDelayNs : Nat
  enforceEqualShape : Bool
  deriving DecidableEq, Repr

/-- Why the batch-formation loop stopped growing the current payload. -/
inductive CutReason where
  | hardLimit
  | preferredReady
  | shapeReject
  | drained
  deriving DecidableEq, Repr

/-- Modelled from the spec: `Payload::TryAdd`'s shape admission check
(spec section 4.2); the body of `TryAdd` is not under `src/`.  A request
is compatible with the pending payload when shape enforcement is off or
its shape key matches every request already in the payload. -/
def compatible (cfg : BatchConfig) (pending : List InferenceRequest)
    (r : InferenceRequest) : Bool :=
  !cfg.enforceEqualShape || pending.all (fun q => q.shape == r.shape)

/-- Modelled from the spec: the greedy pulling loop of `GetDynamicBatch`
(spec section 4.3, steps 1-4); the body of `GetDynamicBatch` is not
under `src/`.  Starting from the pending payload and the requests
available right now, it:
1. cuts immediately when `pending_batch_size_ ≥ max_batch_size_`;
2. otherwise pulls the next queued request, leaving it at the head of
   the queue and stopping on a shape rejection;
3. cuts immediately when the grown payload hits a preferred size;
4. otherwise keeps pulling while requests are immediately available,
   reporting `drained` when the queue empties first (the delay-budget
   wait of step 5 is decided by `readyToDispatch`). -/
def getDynamicBatch (cfg : BatchConfig) (pending queue : List InferenceRequest) :
    List InferenceRequest × List InferenceRequest × CutReason :=
  if cfg.maxBatchSize ≤ pending.length then
    (pending, queue, .hardLimit)
  else
    match queue with
    | [] => (pending, [], .drained)
    | r :: rest =>
      if compatible cfg pending r then
        if (pending.length + 1) ∈ cfg.preferredBatchSizes then
          (pending ++ [r], rest, .preferredReady)
        else
          getDynamicBatch cfg (pending ++ [r]) rest
      else
        (pending, r :: rest, .shapeReject)

/-- Modelled from the spec: the dispatch decision after the pulling loop
(spec section 4.3, steps 5-6); the batcher thread body is not under
`src/`.  A payload cut for the hard limit, a preferred size, or a shape
rejection dispatches immediately; a payload that merely drained the
queue dispatches only once `pending_batch_delay_ns_` has elapsed from
the time the first request joined it.  An empty payload never
dispatches. -/
def readyToDispatch (cfg : BatchConfig) (reason : CutReason)
    (pendingLen firstJoinNs nowNs : Nat) : Bool :=
  match reason with
  | .hardLimit => 0 < pendingLen
  | .preferredReady => 0 < pendingLen
  | .shapeReject => 0 < pendingLen
  | .drained => 0 < pendingLen && firstJoinNs + cfg.pendingBatchDelayNs ≤ nowNs

/-- A payload: one batch under construction or execution, owning the
ordered sequence of requests claimed for it. -/
structure Payload where
  requests : List InferenceRequest
  deriving DecidableEq, Repr

/-- `Payload::RequestCount()`: the number of requests bound to the
payload. -/
def Payload.RequestCount (p : Payload) : Nat :=
  p.requests.length

/-- The priority queue `queue_`: one FIFO level per priority, each with
its queue policy (level 0 is the single default level when priorities
are not configured). -/
structure PriorityQueue where
  levels : List (ModelQueuePolicy × List InferenceRequest)
  deriving DecidableEq, Repr

/-- `PriorityQueue::Size()`: total enqueued request count, the sum of
the per-level sizes. -/
def PriorityQueue.Size (q : PriorityQueue) : Nat :=
  (q.levels.map (fun lv => lv.2.length)).sum

/-- Modelled from the spec: the overflow handling of
`PriorityQueue::Enqueue` at one priority level (spec section 4.1); the
`PriorityQueue` implementation is not under `src/`.  Below capacity the
request joins the tail.  At capacity, a reject policy fails with
`QueueFull`; an evict policy removes the oldest request, completes it
with a `Timeout` error, and then accepts the new request.  On success it
returns the new level contents together with the requests completed with
an error as a side effect. -/
def levelEnqueue (pol : ModelQueuePolicy) (level : List InferenceRequest)
    (r : InferenceRequest) :
    Except ErrCode (List InferenceRequest × List (InferenceRequest × ErrCode)) :=
  if level.length < pol.maxQueueSize then
    .ok (level ++ [r], [])
  else
    match pol.action with
    | .reject => .error .QueueFull
    | .evict =>
      match level with
      | [] => .ok ([r], [])
      | v :: older => .ok (older ++ [r], [(v, .Timeout)])

/-- Modelled from the spec: `PriorityQueue::Enqueue` dispatching to the
request's priority level (spec section 4.1). A request whose priority
has no configured level is refused. -/
def PriorityQueue.enqueueReq (q : PriorityQueue) (r : InferenceRequest) :
    Except ErrCode (PriorityQueue × List (InferenceRequest × ErrCode)) :=
  match q.levels.get? r.priority with
  | none => .error .QueueFull
  | some (pol, lvl) =>
    match levelEnqueue pol lvl r with
    | .error e => .error e
    | .ok (lvl2, completed) =>
      .ok (⟨q.levels.set r.priority (pol, lvl2)⟩, completed)

/-- The scheduler state: the fields of `DynamicBatchScheduler` that the
claims observe.  `dispatched` stands for the payloads already handed off
to the rate limiter/backend and not yet completed (referenced by the
execution layer, not stored in a scheduler container);
`cvNotifyCount` counts the notifications issued on `cv_`, so that a
transition that does not signal the condition variable is visible as
leaving it unchanged. -/
structure SchedulerState where
  queue_ : PriorityQueue
  stop_ : Bool
  curr_payload_ : Option Payload
  dispatched : List Payload
  completion_queue_ : List (List (Nat × Nat))
  cvNotifyCount : Nat
  deriving DecidableEq, Repr

/-- `DynamicBatchScheduler::Stop()`, embedded from the source
(`void Stop() override { stop_ = true; }`): the single assignment of the
stop flag. -/
def Stop (s : SchedulerState) : SchedulerState :=
  { s with stop_ := true }

/-- `DynamicBatchScheduler::InflightInferenceCount()`, embedded from the
source: the queue size, plus the current payload's request count when a
current payload exists. -/
def InflightInferenceCount (s : SchedulerState) : Nat :=
  match s.curr_payload_ with
  | some p => s.queue_.Size + p.RequestCount
  | none => s.queue_.Size

/-- Modelled from the spec: `DynamicBatchScheduler::Enqueue` (spec
sections 4.1 and 4.6); its body is not under `src/`.  It fails with
`Unavailable` while stopping/stopped; otherwise the request is admitted
to its priority level subject to the level's queue policy and the
batcher thread is signalled through `cv_`. -/
def Enqueue (s : SchedulerState) (r : InferenceRequest) :
    Except ErrCode (SchedulerState × List (InferenceRequest × ErrCode)) :=
  if s.stop_ then .error .Unavailable
  else
    match s.queue_.enqueueReq r with
    | .error e => .error e
    | .ok (q2, completed) =>
      .ok ({ s with queue_ := q2, cvNotifyCount := s.cvNotifyCount + 1 },
        completed)

/-- A caller-visible terminal outcome of one request. -/
inductive Outcome where
  | response (rid : Nat)
  | failure (rid : Nat) (e : ErrCode)
  deriving DecidableEq, Repr

/-- The responses delivered for one finished payload. -/
def finishPayload (p : Payload) : List Outcome :=
  p.requests.map (fun r => .response r.rid)

/-- Terminal outcomes for the requests still queued at one level when
the scheduler shuts down. -/
def drainLevel : List InferenceRequest → List Outcome
  | [] => []
  | r :: rest => .failure r.rid .Unavailable :: drainLevel rest

/-- Terminal outcomes for every request still queued when the scheduler
shuts down. -/
def drainAll : List (ModelQueuePolicy × List InferenceRequest) → List Outcome
  | [] => []
  | (_, lvl) :: ls => drainLevel lvl ++ drainAll ls

/-- Modelled from the spec: the batcher thread's cooperative shutdown
(spec section 4.6); the `BatcherThread` body is not under `src/`.  On
observing the stop flag the thread finishes the payloads already in
flight and the current payload — delivering their responses — then
drains the remaining queued requests to a terminal outcome and exits. -/
def batcherShutdown (s : SchedulerState) : List Outcome :=
  (s.dispatched.map finishPayload).flatten ++
  (match s.curr_payload_ with
   | some p => finishPayload p
   | none => []) ++
  drainAll s.queue_.levels

/-- Modelled from the spec: one payload-construction round of the
batcher thread (spec sections 2 and 4.3); the `BatcherThread` body is
not under `src/`.  An empty queue yields no payload.  With dynamic
batching disabled (`max_batch_size_ == 0`) the front request alone forms
the payload and dispatches immediately; otherwise the `GetDynamicBatch`
loop grows the payload and the dispatch decision of `readyToDispatch`
applies.  Returns the payload contents, the residual queue, and whether
the payload dispatches now. -/
def nextPayloadRound (cfg : BatchConfig) (queue : List InferenceRequest)
    (firstJoinNs nowNs : Nat) :
    Option (List InferenceRequest × List InferenceRequest × Bool) :=
  match queue with
  | [] => none
  | r :: rest =>
    if cfg.maxBatchSize == 0 || !cfg.dynamicBatchingEnabled then
      some ([r], rest, true)
    else
      let (p, rem, reason) := getDynamicBatch cfg [] (r :: rest)
      some (p, rem, readyToDispatch cfg reason p.length firstJoinNs nowNs)

/-- The completion machinery's state in ordered mode: the caller-visible
output stream so far, the completion slot of the front (oldest
outstanding) bucket of `completion_queue_`, and the remaining buckets.
A response is identified by its completion slot together with its
sequence position in that slot's batch, so a bucket is the list of
received-flags of its batch, one per position. -/
structure CompletionBuffer where
  delivered : List (Nat × Nat)
  frontSlot : Nat
  buckets : List (List Bool)
  deriving DecidableEq, Repr

/-- Record one received response position in a bucket. -/
def setFlag (b : List Bool) (p : Nat) : List Bool :=
  b.set p true

/-- Record one received response in the bucket at the given index of the
completion queue. -/
def markReceived : List (List Bool) → Nat → Nat → List (List Bool)
  | [], _, _ => []
  | b :: rest, 0, p => setFlag b p :: rest
  | b :: rest, i + 1, p => b :: markReceived rest i p

/-- A bucket is fully populated when every position has its response. -/
def bucketFull (b : List Bool) : Bool :=
  b.all (fun x => x)

/-- Flush the longest fully-populated prefix of the completion queue,
delivering each flushed bucket's responses in sequence-position order;
returns the flushed output, the new front slot, and the remaining
buckets. -/
def flushReady : Nat → List (List Bool) → List (Nat × Nat) × Nat × List (List Bool)
  | slot, [] => ([], slot, [])
  | slot, b :: rest =>
    if bucketFull b then
      let (out, slot2, rest2) := flushReady (slot + 1) rest
      ((List.range b.length).map (fun p => (slot, p)) ++ out, slot2, rest2)
    else ([], slot, b :: rest)

/-- Modelled from the spec: `FinalizeResponses` (spec section 4.5); its
body is not under `src/`.  Flushes buckets starting from the oldest
outstanding slot, delivering each bucket to the caller-visible stream
only once it and all earlier buckets are complete. -/
def FinalizeResponses (cb : CompletionBuffer) : CompletionBuffer :=
  match flushReady cb.frontSlot cb.buckets with
  | (out, slot2, rest2) =>
    { delivered := cb.delivered ++ out, frontSlot := slot2, buckets := rest2 }

/-- Modelled from the spec: the ordered mode of `DelegateResponse` (spec
section 4.5); its body is not under `src/`.  A completed response —
from an executed batch or a cache hit alike — is recorded in its slot's
bucket at its sequence position, and the ready buckets are flushed. -/
def DelegateResponse (cb : CompletionBuffer) (s p : Nat) : CompletionBuffer :=
  FinalizeResponses
    { cb with buckets := markReceived cb.buckets (s - cb.frontSlot) p }

/-- The completion buffer at the start of a run whose batches have the
given sizes: nothing delivered, slot 0 in front, all buckets empty. -/
def initBuffer (sizes : List Nat) : CompletionBuffer :=
  { delivered := []
    frontSlot := 0
    buckets := sizes.map (fun n => List.replicate n false) }

/-- Run a whole completion schedule: deliver the given (slot, position)
completions in order through `DelegateResponse`. -/
def runCompletions (sizes : List Nat) (ops : List (Nat × Nat)) :
    CompletionBuffer :=
  ops.foldl (fun cb op => DelegateResponse cb op.1 op.2) (initBuffer sizes)

/-- The response identities of the batches of the given sizes, slots
numbered from `s0`, each batch in sequence-position order.  Since
completion slots are assigned monotonically in enqueue order and
positions number a batch's requests in enqueue order, `canonFrom 0
sizes` is the request-enqueue order of the whole run. -/
def canonFrom : Nat → List Nat → List (Nat × Nat)
  | _, [] => []
  | s0, n :: rest =>
    (List.range n).map (fun p => (s0, p)) ++ canonFrom (s0 + 1) rest

/-- The caller-visible order matching request-enqueue order. -/
def canonOrder (sizes : List Nat) : List (Nat × Nat) :=
  canonFrom 0 sizes

/-- Ghost view: the received-flags of the bucket of slot `s` and size
`n`, given the set of completions processed so far. -/
def flagsFor (done : List (Nat × Nat)) (s n : Nat) : List Bool :=
  (List.range n).map (fun q => decide ((s, q) ∈ done))

/-- Ghost view: the buckets of the completion queue from slot `s0` on,
for the batch sizes `rest`, given the completions processed so far. -/
def flagsList (done : List (Nat × Nat)) : Nat → List Nat → List (List Bool)
  | _, [] => []
  | s0, n :: rest => flagsFor done s0 n :: flagsList done (s0 + 1) rest

/-- Whether every response of the slot-`s` batch of size `n` has been
received. -/
def slotFull (done : List (Nat × Nat)) (s n : Nat) : Bool :=
  (List.range n).all (fun q => decide ((s, q) ∈ done))

/-- The number of leading fully-received batches, slots numbered from
`s0`. -/
def leadFull (done : List (Nat × Nat)) : Nat → List Nat → Nat
  | _, [] => 0
  | s0, n :: rest =>
    if slotFull done s0 n then leadFull done (s0 + 1) rest + 1 else 0

/-- Ghost view of the whole completion-buffer state as a function of the
set of completions processed so far: the leading fully-received batches
have been flushed to the output stream, the rest sit in the queue with
their received-flags. -/
def mkBuffer (sizes : List Nat) (done : List (Nat × Nat)) :
    CompletionBuffer :=
  { delivered := canonFrom 0 (sizes.take (leadFull done 0 sizes))
    frontSlot := leadFull done 0 sizes
    buckets := flagsList done (leadFull done 0 sizes)
        (sizes.drop (leadFull done 0 sizes)) }

/-- Payload conservation: the pulling loop only moves requests from the
queue into the payload; together they are exactly the requests it
started from. -/
theorem getDynamicBatch_conserves (cfg : BatchConfig)
    (pending queue : List InferenceRequest) :
    (getDynamicBatch cfg pending queue).1 ++
      (getDynamicBatch cfg pending queue).2.1 = pending ++ queue := by
  induction queue generalizing pending with
  | nil =>
    rw [getDynamicBatch]
    by_cases h : cfg.maxBatchSize ≤ pending.length <;> simp [h]
  | cons r rest ih =>
    rw [getDynamicBatch]
    by_cases h : cfg.maxBatchSize ≤ pending.length
    · simp [h]
    · by_cases hc : compatible cfg pending r
      · by_cases hp : (pending.length + 1) ∈ cfg.preferredBatchSizes
        · simp [h, hc, hp]
        · simpa [h, hc, hp] using ih (pending ++ [r])
      · simp [h, hc]

/-- The pending payload is a prefix of the payload the pulling loop
returns: requests already claimed are never given back. -/
theorem getDynamicBatch_extends_pending (cfg : BatchConfig)
    (pending queue : List InferenceRequest) :
    ∃ tail, (getDynamicBatch cfg pending queue).1 = pending ++ tail := by
  induction queue generalizing pending with
  | nil =>
    rw [getDynamicBatch]
    by_cases h : cfg.maxBatchSize ≤ pending.length <;>
      exact ⟨[], by simp [h]⟩
  | cons r rest ih =>
    rw [getDynamicBatch]
    by_cases h : cfg.maxBatchSize ≤ pending.length
    · exact ⟨[], by simp [h]⟩
    · by_cases hc : compatible cfg pending r
      · by_cases hp : (pending.length + 1) ∈ cfg.preferredBatchSizes
        · exact ⟨[r], by simp [h, hc, hp]⟩
        · obtain ⟨t, ht⟩ := ih (pending ++ [r])
          exact ⟨r :: t, by simp [h, hc, hp, ht]⟩
      · exact ⟨[], by simp [h, hc]⟩

/-- A bucket's ghost flags have the batch's size. -/
theorem flagsFor_length (done : List (Nat × Nat)) (s n : Nat) :
    (flagsFor done s n).length = n := by
  simp [flagsFor]

/-- Before any completion, a bucket's flags are all clear. -/
theorem flagsFor_nil (s n : Nat) :
    flagsFor [] s n = List.replicate n false := by
  simp [flagsFor, List.eq_replicate_iff]

/-- A ghost bucket is fully populated exactly when its slot is fully
received. -/
theorem bucketFull_flagsFor (done : List (Nat × Nat)) (s n : Nat) :
    bucketFull (flagsFor done s n) = slotFull done s n := by
  simp only [bucketFull, flagsFor, slotFull]
  generalize List.range n = l
  induction l with
  | nil => rfl
  | cons q l ih => simp_all [List.all_cons]

/-- Receiving more completions keeps a full slot full. -/
theorem slotFull_mono {done done2 : List (Nat × Nat)} (s n : Nat)
    (hsub : ∀ x ∈ done, x ∈ done2) (h : slotFull done s n = true) :
    slotFull done2 s n = true := by
  simp only [slotFull, List.all_eq_true, List.mem_range, decide_eq_true_eq]
    at h ⊢
  exact fun q hq => hsub _ (h q hq)

/-- A completion for one slot leaves the ghost flags of every other slot
unchanged. -/
theorem flagsFor_irrel (done : List (Nat × Nat)) {s s2 : Nat} (p n : Nat)
    (hne : s2 ≠ s) :
    flagsFor ((s, p) :: done) s2 n = flagsFor done s2 n := by
  unfold flagsFor
  refine List.map_congr_left fun q hq => ?_
  rw [decide_eq_decide]
  simp [hne]

/-- Setting the received flag of a position is recording that completion
in the ghost flags. -/
theorem setFlag_flagsFor (done : List (Nat × Nat)) (s n p : Nat) :
    setFlag (flagsFor done s n) p = flagsFor ((s, p) :: done) s n := by
  apply List.ext_getElem
  · simp [setFlag, flagsFor]
  · intro i h1 h2
    simp only [setFlag, flagsFor, List.getElem_set, List.getElem_map,
      List.getElem_range]
    by_cases hip : p = i
    · subst hip
      simp
    · simp only [if_neg hip]
      rw [decide_eq_decide]
      simp [List.mem_cons, Ne.symm hip]

/-- A completion for a slot before `s0` leaves the ghost buckets from
`s0` on unchanged. -/
theorem flagsList_irrel (done : List (Nat × Nat)) (s p : Nat) :
    ∀ (rest : List Nat) (s0 : Nat), s < s0 →
      flagsList ((s, p) :: done) s0 rest = flagsList done s0 rest := by
  intro rest
  induction rest with
  | nil => intro s0 _; rfl
  | cons n rest2 ih =>
    intro s0 hs0
    simp only [flagsList]
    refine congrArg₂ _ ?_ (ih (s0 + 1) (by omega))
    exact flagsFor_irrel done p n (by omega)

/-- Recording a completion in the bucket list is marking its position in
its slot's ghost bucket. -/
theorem mark_flagsList (done : List (Nat × Nat)) (s p : Nat) :
    ∀ (rest : List Nat) (s0 : Nat), s0 ≤ s → s - s0 < rest.length →
      markReceived (flagsList done s0 rest) (s - s0) p =
        flagsList ((s, p) :: done) s0 rest := by
  intro rest
  induction rest with
  | nil =>
    intro s0 _ hi
    simp at hi
  | cons n rest2 ih =>
    intro s0 hs0 hi
    by_cases h : s0 = s
    · subst h
      simp only [Nat.sub_self, flagsList, markReceived]
      refine congrArg₂ _ ?_ ?_
      · exact setFlag_flagsFor done s0 n p
      · exact (flagsList_irrel done s0 p rest2 (s0 + 1) (by omega)).symm
    · have hk : s - s0 = (s - (s0 + 1)) + 1 := by omega
      rw [hk]
      simp only [flagsList, markReceived]
      refine congrArg₂ _ ?_ ?_
      · exact (flagsFor_irrel done p n (by omega)).symm
      · exact ih (s0 + 1) (by omega) (by simp at hi; omega)

/-- Every slot before the full-prefix count is fully received. -/
theorem leadFull_full (done : List (Nat × Nat)) :
    ∀ (rest : List Nat) (s0 j : Nat), j < leadFull done s0 rest →
      slotFull done (s0 + j) (rest.getD j 0) = true ∧ j < rest.length := by
  intro rest
  induction rest with
  | nil =>
    intro s0 j hj
    simp [leadFull] at hj
  | cons n rest2 ih =>
    intro s0 j hj
    rw [leadFull] at hj
    by_cases hful : slotFull done s0 n = true
    · rw [if_pos hful] at hj
      match j with
      | 0 => exact ⟨by simpa using hful, by simp⟩
      | j2 + 1 =>
        obtain ⟨h1, h2⟩ := ih (s0 + 1) j2 (by omega)
        refine ⟨?_, by simp; omega⟩
        rw [show s0 + (j2 + 1) = s0 + 1 + j2 by omega]
        simpa using h1
    · rw [if_neg hful] at hj
      omega

/-- The full-prefix count never exceeds the number of batches. -/
theorem leadFull_le_length (done : List (Nat × Nat)) :
    ∀ (rest : List Nat) (s0 : Nat), leadFull done s0 rest ≤ rest.length := by
  intro rest
  induction rest with
  | nil => intro s0; simp [leadFull]
  | cons n rest2 ih =>
    intro s0
    rw [leadFull]
    by_cases hful : slotFull done s0 n = true
    · rw [if_pos hful]
      have := ih (s0 + 1)
      simp
      omega
    · rw [if_neg hful]
      simp

/-- The full-prefix count of a concatenation whose first part is fully
received is the first part's length plus the rest's count. -/
theorem leadFull_append (done : List (Nat × Nat)) :
    ∀ (a b : List Nat) (s0 : Nat),
      (∀ j, j < a.length → slotFull done (s0 + j) (a.getD j 0) = true) →
      leadFull done s0 (a ++ b) =
        a.length + leadFull done (s0 + a.length) b := by
  intro a
  induction a with
  | nil =>
    intro b s0 _
    simp
  | cons n a2 ih =>
    intro b s0 ha
    have h0 : slotFull done s0 n = true := by simpa using ha 0 (by simp)
    rw [List.cons_append, leadFull, if_pos h0]
    rw [ih b (s0 + 1) (fun j hj => by
      have := ha (j + 1) (by simp; omega)
      rw [show s0 + 1 + j = s0 + (j + 1) by omega]
      simpa using this)]
    rw [show s0 + 1 + a2.length = s0 + (a2.length + 1) by omega]
    simp
    omega

/-- Flushing the ghost buckets delivers exactly the canonical entries of
the newly full prefix and leaves the ghost buckets of the remainder. -/
theorem flushReady_flagsList (done : List (Nat × Nat)) :
    ∀ (rest : List Nat) (s0 : Nat),
      flushReady s0 (flagsList done s0 rest) =
        (canonFrom s0 (rest.take (leadFull done s0 rest)),
         s0 + leadFull done s0 rest,
         flagsList done (s0 + leadFull done s0 rest)
           (rest.drop (leadFull done s0 rest))) := by
  intro rest
  induction rest with
  | nil =>
    intro s0
    simp [flagsList, flushReady, leadFull, canonFrom]
  | cons n rest2 ih =>
    intro s0
    rw [flagsList, flushReady, bucketFull_flagsFor, leadFull]
    by_cases hful : slotFull done s0 n = true
    · rw [if_pos hful, if_pos hful, ih (s0 + 1)]
      rw [show s0 + 1 + leadFull done (s0 + 1) rest2 =
        s0 + (leadFull done (s0 + 1) rest2 + 1) by omega]
      simp [canonFrom, flagsFor_length]
    · rw [if_neg hful, if_neg hful]
      simp [flagsList, canonFrom]

/-- The canonical order of a concatenation splits at the slot of the
join. -/
theorem canonFrom_append :
    ∀ (a b : List Nat) (s0 : Nat),
      canonFrom s0 (a ++ b) = canonFrom s0 a ++ canonFrom (s0 + a.length) b := by
  intro a
  induction a with
  | nil =>
    intro b s0
    simp [canonFrom]
  | cons n a2 ih =>
    intro b s0
    rw [List.cons_append, canonFrom, canonFrom, ih]
    rw [show s0 + 1 + a2.length = s0 + (a2.length + 1) by omega]
    simp [List.append_assoc]

/-- Membership in the canonical order: exactly the positions of the
declared batches. -/
theorem canonFrom_mem :
    ∀ (rest : List Nat) (s0 s p : Nat),
      (s, p) ∈ canonFrom s0 rest ↔
        ∃ j, s = s0 + j ∧ j < rest.length ∧ p < rest.getD j 0 := by
  intro rest
  induction rest with
  | nil =>
    intro s0 s p
    simp [canonFrom]
  | cons n rest2 ih =>
    intro s0 s p
    rw [canonFrom]
    simp only [List.mem_append, List.mem_map, List.mem_range, ih,
      Prod.mk.injEq]
    constructor
    · rintro (⟨q, hq, rfl, rfl⟩ | ⟨j, hj1, hj2, hj3⟩)
      · exact ⟨0, by omega, by simp, by simpa using hq⟩
      · exact ⟨j + 1, by omega, by simp; omega, by simpa using hj3⟩
    · rintro ⟨j, hj1, hj2, hj3⟩
      match j with
      | 0 => exact Or.inl ⟨p, by simpa using hj3, by omega, rfl⟩
      | j2 + 1 =>
        exact Or.inr ⟨j2, by omega, by simp at hj2; omega, by simpa using hj3⟩

/-- The canonical order lists each response identity once. -/
theorem canonFrom_nodup :
    ∀ (rest : List Nat) (s0 : Nat), (canonFrom s0 rest).Nodup := by
  intro rest
  induction rest with
  | nil =>
    intro s0
    simp [canonFrom]
  | cons n rest2 ih =>
    intro s0
    rw [canonFrom]
    refine List.Nodup.append ?_ (ih (s0 + 1)) ?_
    · refine List.Nodup.map ?_ (List.nodup_range n)
      intro a b hab
      simpa using congrArg Prod.snd hab
    · intro x hx hx2
      obtain ⟨q, _, rfl⟩ := List.mem_map.1 hx
      obtain ⟨j, hj1, _, _⟩ := (canonFrom_mem rest2 (s0 + 1) s0 q).1 hx2
      omega

/-- Delivering a completion for a not-yet-flushed slot records it in the
ghost buckets and finalizes. -/
theorem delegate_unfold (sizes : List Nat) (done : List (Nat × Nat))
    (s p : Nat) (hfs : leadFull done 0 sizes ≤ s) (hs : s < sizes.length) :
    DelegateResponse (mkBuffer sizes done) s p =
      FinalizeResponses
        { delivered := canonFrom 0 (sizes.take (leadFull done 0 sizes))
          frontSlot := leadFull done 0 sizes
          buckets := flagsList ((s, p) :: done) (leadFull done 0 sizes)
              (sizes.drop (leadFull done 0 sizes)) } := by
  simp only [DelegateResponse, mkBuffer]
  rw [mark_flagsList done s p _ _ hfs (by simp; omega)]

/-- Finalizing a buffer whose flushed prefix is fully received yields
the ghost view of the buffer. -/
theorem finalize_flags (sizes : List Nat) (done2 : List (Nat × Nat))
    (f : Nat) (hfle : f ≤ sizes.length)
    (hful : ∀ j, j < f → slotFull done2 j (sizes.getD j 0) = true) :
    FinalizeResponses
      { delivered := canonFrom 0 (sizes.take f)
        frontSlot := f
        buckets := flagsList done2 f (sizes.drop f) } =
      mkBuffer sizes done2 := by
  have htklen : (sizes.take f).length = f := by
    simp [List.length_take, Nat.min_eq_left hfle]
  have hgetD : ∀ j, j < f → (sizes.take f).getD j 0 = sizes.getD j 0 := by
    intro j hj
    simp [List.getElem?_take_of_lt hj]
  have hside : ∀ j, j < (sizes.take f).length →
      slotFull done2 (0 + j) ((sizes.take f).getD j 0) = true := by
    intro j hj
    rw [htklen] at hj
    rw [hgetD j hj]
    simpa using hful j hj
  have hf2 : leadFull done2 0 sizes =
      f + leadFull done2 f (sizes.drop f) := by
    conv_lhs => rw [← List.take_append_drop f sizes]
    rw [leadFull_append done2 (sizes.take f) (sizes.drop f) 0 hside, htklen]
    simp
  simp only [FinalizeResponses]
  rw [flushReady_flagsList done2 (sizes.drop f) f]
  simp only [mkBuffer, hf2, CompletionBuffer.mk.injEq]
  refine ⟨?_, trivial, ?_⟩
  · rw [List.take_add, canonFrom_append (sizes.take f), htklen]
    simp
  · rw [List.drop_drop]

/-- Processing one fresh completion moves the ghost buffer state from
the processed set `done` to `(s, p) :: done`. -/
theorem delegate_mkBuffer (sizes : List Nat) (done : List (Nat × Nat))
    (s p : Nat) (hmem : (s, p) ∈ canonOrder sizes) (hnew : (s, p) ∉ done) :
    DelegateResponse (mkBuffer sizes done) s p =
      mkBuffer sizes ((s, p) :: done) := by
  obtain ⟨j, hsj, hjlen, hp⟩ := (canonFrom_mem sizes 0 s p).1 hmem
  have hs_len : s < sizes.length := by omega
  have hp2 : p < sizes.getD s 0 := by
    rw [show s = j by omega]
    exact hp
  have hfs : leadFull done 0 sizes ≤ s := by
    by_contra hcon
    obtain ⟨hful, _⟩ := leadFull_full done sizes 0 s (by omega)
    simp only [slotFull, List.all_eq_true, List.mem_range,
      decide_eq_true_eq, Nat.zero_add] at hful
    exact hnew (hful p hp2)
  rw [delegate_unfold sizes done s p hfs hs_len]
  refine finalize_flags sizes ((s, p) :: done) (leadFull done 0 sizes)
    (leadFull_le_length done sizes 0) ?_
  intro j2 hj2
  obtain ⟨hful, _⟩ := leadFull_full done sizes 0 j2 hj2
  refine slotFull_mono _ _ (fun x hx => List.mem_cons_of_mem _ hx) ?_
  simpa using hful

/-- Folding a schedule of fresh completions over the ghost buffer state
accumulates exactly the processed set. -/
theorem runFrom_mkBuffer (sizes : List Nat) :
    ∀ (ops done : List (Nat × Nat)),
      (done ++ ops).Perm (canonOrder sizes) →
      ops.foldl (fun cb op => DelegateResponse cb op.1 op.2)
        (mkBuffer sizes done) = mkBuffer sizes (ops.reverse ++ done) := by
  intro ops
  induction ops with
  | nil =>
    intro done _
    simp
  | cons op rest ih =>
    intro done hperm
    have hopmem : op ∈ canonOrder sizes := hperm.subset (by simp)
    have hnodup : (done ++ op :: rest).Nodup :=
      (hperm.nodup_iff).2 (canonFrom_nodup sizes 0)
    have hopnew : op ∉ done := by
      rcases List.nodup_append.1 hnodup with ⟨_, _, hdisj⟩
      intro hin
      exact hdisj hin (by simp)
    have hstep : DelegateResponse (mkBuffer sizes done) op.1 op.2 =
        mkBuffer sizes (op :: done) := by
      obtain ⟨s, p⟩ := op
      exact delegate_mkBuffer sizes done s p hopmem hopnew
    have hperm2 : ((op :: done) ++ rest).Perm (canonOrder sizes) := by
      refine List.Perm.trans ?_ hperm
      exact (List.perm_middle).symm
    rw [List.foldl_cons, hstep, ih (op :: done) hperm2]
    simp

/-- With every batch non-empty, the initial completion buffer is the
ghost state of the empty processed set. -/
theorem initBuffer_mkBuffer (sizes : List Nat) (hpos : ∀ n ∈ sizes, 0 < n) :
    initBuffer sizes = mkBuffer sizes [] := by
  have hlead : leadFull ([] : List (Nat × Nat)) 0 sizes = 0 := by
    cases sizes with
    | nil => rfl
    | cons n rest =>
      have hn : 0 < n := hpos n (by simp)
      have hful : slotFull [] 0 n = false := by
        simp only [slotFull, List.all_eq_false, List.mem_range]
        exact ⟨0, hn, by simp⟩
      rw [leadFull, hful]
      simp
  have hflags : ∀ (rest : List Nat) (s0 : Nat),
      flagsList [] s0 rest = rest.map (fun n => List.replicate n false) := by
    intro rest
    induction rest with
    | nil => intro s0; rfl
    | cons n rest2 ih =>
      intro s0
      simp [flagsList, flagsFor_nil, ih]
  simp [initBuffer, mkBuffer, hlead, hflags, canonFrom]

/-- C2: in ordered mode (`preserve_ordering_`), for every completion
schedule in which each response of the run's batches is delivered
exactly once — in any internal completion order, cache hits being
size-one slots completing at arbitrary points relative to executed
batches — the caller-visible output stream ends up exactly in
request-enqueue order (slots are assigned monotonically in enqueue
order, positions number a batch's requests in enqueue order). -/
theorem responses_delivered_in_enqueue_order (sizes : List Nat)
    (hpos : ∀ n ∈ sizes, 0 < n) (ops : List (Nat × Nat))
    (hperm : ops.Perm (canonOrder sizes)) :
    (runCompletions sizes ops).delivered = canonOrder sizes := by
  rw [runCompletions, initBuffer_mkBuffer sizes hpos,
    runFrom_mkBuffer sizes ops [] (by simpa using hperm),
    List.append_nil]
  have hrev : ops.reverse.Perm (canonOrder sizes) :=
    (ops.reverse_perm).trans hperm
  have hall : ∀ j, j < sizes.length →
      slotFull ops.reverse j (sizes.getD j 0) = true := by
    intro j hj
    simp only [slotFull, List.all_eq_true, List.mem_range,
      decide_eq_true_eq]
    intro q hq
    refine hrev.mem_iff.2 ?_
    exact (canonFrom_mem sizes 0 j q).2 ⟨j, by omega, hj, hq⟩
  have hlead : leadFull ops.reverse 0 sizes = sizes.length := by
    have hstep := leadFull_append ops.reverse sizes [] 0
      (fun j hj => by simpa using hall j hj)
    simpa using hstep
  simp [mkBuffer, hlead, canonOrder]

/-- Witness for C2 at a concrete input: two batches of sizes 2 and 1,
completed entirely out of order. -/
theorem responses_delivered_in_enqueue_order_witness :
    (∀ n ∈ [2, 1], 0 < n) ∧
    (([(1, 0), (0, 1), (0, 0)] : List (Nat × Nat)).Perm
      (canonOrder [2, 1])) ∧
    (runCompletions [2, 1] [(1, 0), (0, 1), (0, 0)]).delivered =
      canonOrder [2, 1] :=
  ⟨by decide, by decide,
    responses_delivered_in_enqueue_order [2, 1] (by decide)
      [(1, 0), (0, 1), (0, 0)] (by decide)⟩

/-- C1: for every reachable scheduler state (pending payload within the
limit, as every payload starts empty) and every queue content, the
payload formed by the `GetDynamicBatch` loop never exceeds
`max_batch_size_`; and whenever `pending_batch_size_` has reached
`max_batch_size_`, the payload is cut immediately with no further
request added to it. -/
theorem payload_never_exceeds_max_batch_size (cfg : BatchConfig)
    (pending queue : List InferenceRequest)
    (h : pending.length ≤ cfg.maxBatchSize) :
    (getDynamicBatch cfg pending queue).1.length ≤ cfg.maxBatchSize ∧
    (pending.length = cfg.maxBatchSize →
      getDynamicBatch cfg pending queue = (pending, queue, .hardLimit)) := by
  constructor
  · revert h
    induction queue generalizing pending with
    | nil =>
      intro h
      rw [getDynamicBatch]
      by_cases hm : cfg.maxBatchSize ≤ pending.length <;> simp [hm, h]
    | cons r rest ih =>
      intro h
      rw [getDynamicBatch]
      by_cases hm : cfg.maxBatchSize ≤ pending.length
      · simp [hm, h]
      · by_cases hc : compatible cfg pending r
        · by_cases hp : (pending.length + 1) ∈ cfg.preferredBatchSizes
          · simp [hm, hc, hp]; omega
          · simpa [hm, hc, hp] using ih (pending ++ [r]) (by simp; omega)
        · simp [hm, hc, h]
  · intro hfull
    rw [getDynamicBatch.eq_def]
    simp [hfull]

/-- Witness for C1 at a concrete input: max batch size 2, three queued
requests. -/
theorem payload_never_exceeds_max_batch_size_witness :
    ([] : List InferenceRequest).length ≤
      (⟨true, 2, [], 0, false⟩ : BatchConfig).maxBatchSize ∧
    ((getDynamicBatch ⟨true, 2, [], 0, false⟩ []
        [⟨0, 0, 0⟩, ⟨1, 0, 0⟩, ⟨2, 0, 0⟩]).1.length ≤
      (⟨true, 2, [], 0, false⟩ : BatchConfig).maxBatchSize ∧
    (([] : List InferenceRequest).length =
        (⟨true, 2, [], 0, false⟩ : BatchConfig).maxBatchSize →
      getDynamicBatch ⟨true, 2, [], 0, false⟩ []
          [⟨0, 0, 0⟩, ⟨1, 0, 0⟩, ⟨2, 0, 0⟩] =
        ([], [⟨0, 0, 0⟩, ⟨1, 0, 0⟩, ⟨2, 0, 0⟩], .hardLimit))) :=
  ⟨by decide, payload_never_exceeds_max_batch_size _ _ _ (by decide)⟩

/-- C4: with `preferred_batch_sizes_ = {4, 8}`, four compatible arrivals
and an idle queue afterwards, the payload is cut at size 4 with reason
preferred-ready, and it dispatches at once — at every clock value, so in
particular without waiting for `pending_batch_delay_ns_` to elapse. -/
theorem preferred_size_four_cuts_immediately (cfg : BatchConfig)
    (r1 r2 r3 r4 : InferenceRequest)
    (hpref : cfg.preferredBatchSizes = [4, 8])
    (hmax : 8 ≤ cfg.maxBatchSize)
    (hshape : cfg.enforceEqualShape = false)
    (firstJoinNs nowNs : Nat) :
    getDynamicBatch cfg [] [r1, r2, r3, r4] =
      ([r1, r2, r3, r4], [], .preferredReady) ∧
    readyToDispatch cfg .preferredReady 4 firstJoinNs nowNs = true := by
  have h0 : ¬ cfg.maxBatchSize ≤ 0 := by omega
  have h1 : ¬ cfg.maxBatchSize ≤ 1 := by omega
  have h2 : ¬ cfg.maxBatchSize ≤ 2 := by omega
  have h3 : ¬ cfg.maxBatchSize ≤ 3 := by omega
  simp [getDynamicBatch, compatible, readyToDispatch, hpref, hshape,
    h0, h1, h2, h3]

/-- Witness for C4 at a concrete input. -/
theorem preferred_size_four_cuts_immediately_witness :
    (⟨true, 8, [4, 8], 1000, false⟩ : BatchConfig).preferredBatchSizes
        = [4, 8] ∧
    8 ≤ (⟨true, 8, [4, 8], 1000, false⟩ : BatchConfig).maxBatchSize ∧
    (⟨true, 8, [4, 8], 1000, false⟩ : BatchConfig).enforceEqualShape
        = false ∧
    (getDynamicBatch ⟨true, 8, [4, 8], 1000, false⟩ []
        [⟨0, 0, 0⟩, ⟨1, 0, 0⟩, ⟨2, 0, 0⟩, ⟨3, 0, 0⟩] =
      ([⟨0, 0, 0⟩, ⟨1, 0, 0⟩, ⟨2, 0, 0⟩, ⟨3, 0, 0⟩], [], .preferredReady) ∧
    readyToDispatch ⟨true, 8, [4, 8], 1000, false⟩ .preferredReady 4 0 0
        = true) :=
  ⟨by decide, by decide, by decide,
    preferred_size_four_cuts_immediately _ _ _ _ _ (by decide) (by decide)
      (by decide) 0 0⟩

/-- C5: with `preferred_batch_sizes_ = {8}` and only three compatible
arrivals, the payload drains the queue at size 3 without reaching a
preferred size, and it dispatches exactly when
`pending_batch_delay_ns_` has elapsed from the first join — not
earlier; in general any non-empty drained payload is cut once the delay
budget elapses. -/
theorem drained_payload_cut_when_delay_elapses (cfg : BatchConfig)
    (r1 r2 r3 : InferenceRequest)
    (hpref : cfg.preferredBatchSizes = [8])
    (hmax : 8 ≤ cfg.maxBatchSize)
    (hshape : cfg.enforceEqualShape = false)
    (firstJoinNs nowNs : Nat) :
    getDynamicBatch cfg [] [r1, r2, r3] = ([r1, r2, r3], [], .drained) ∧
    (readyToDispatch cfg .drained 3 firstJoinNs nowNs = true ↔
      firstJoinNs + cfg.pendingBatchDelayNs ≤ nowNs) ∧
    (∀ reason pendingLen, 0 < pendingLen →
      firstJoinNs + cfg.pendingBatchDelayNs ≤ nowNs →
      readyToDispatch cfg reason pendingLen firstJoinNs nowNs = true) := by
  have h0 : ¬ cfg.maxBatchSize ≤ 0 := by omega
  have h1 : ¬ cfg.maxBatchSize ≤ 1 := by omega
  have h2 : ¬ cfg.maxBatchSize ≤ 2 := by omega
  have h3 : ¬ cfg.maxBatchSize ≤ 3 := by omega
  refine ⟨?_, ?_, ?_⟩
  · simp [getDynamicBatch, compatible, hpref, hshape, h0, h1, h2, h3]
  · simp [readyToDispatch]
  · intro reason pendingLen hpos hdel
    cases reason <;> simp [readyToDispatch, hpos, hdel]

/-- Witness for C5 at a concrete input: delay 1000 ns, first join at
time 5, clock at 1005. -/
theorem drained_payload_cut_when_delay_elapses_witness :
    (⟨true, 8, [8], 1000, false⟩ : BatchConfig).preferredBatchSizes
        = [8] ∧
    8 ≤ (⟨true, 8, [8], 1000, false⟩ : BatchConfig).maxBatchSize ∧
    (⟨true, 8, [8], 1000, false⟩ : BatchConfig).enforceEqualShape
        = false ∧
    (getDynamicBatch ⟨true, 8, [8], 1000, false⟩ []
        [⟨0, 0, 0⟩, ⟨1, 0, 0⟩, ⟨2, 0, 0⟩] =
      ([⟨0, 0, 0⟩, ⟨1, 0, 0⟩, ⟨2, 0, 0⟩], [], .drained) ∧
    (readyToDispatch ⟨true, 8, [8], 1000, false⟩ .drained 3 5 1005 = true ↔
      5 + (⟨true, 8, [8], 1000, false⟩ : BatchConfig).pendingBatchDelayNs
        ≤ 1005) ∧
    (∀ reason pendingLen, 0 < pendingLen →
      5 + (⟨true, 8, [8], 1000, false⟩ : BatchConfig).pendingBatchDelayNs
        ≤ 1005 →
      readyToDispatch ⟨true, 8, [8], 1000, false⟩ reason pendingLen 5 1005
        = true)) :=
  ⟨by decide, by decide, by decide,
    drained_payload_cut_when_delay_elapses _ _ _ _ (by decide) (by decide)
      (by decide) 5 1005⟩

/-- C6: a queued request whose shape is incompatible with the in-progress
payload is left at the head of its queue and the payload stops growing;
the request is never dropped (payload and residual queue together are
exactly the original requests), and the next payload-formation pass,
starting from a fresh empty payload, includes it. -/
theorem shape_mismatch_deferred_not_dropped (cfg : BatchConfig)
    (pending : List InferenceRequest) (r : InferenceRequest)
    (rest : List InferenceRequest)
    (hroom : pending.length < cfg.maxBatchSize)
    (hincomp : compatible cfg pending r = false) :
    getDynamicBatch cfg pending (r :: rest) =
      (pending, r :: rest, .shapeReject) ∧
    (getDynamicBatch cfg pending (r :: rest)).1 ++
      (getDynamicBatch cfg pending (r :: rest)).2.1 = pending ++ r :: rest ∧
    r ∈ (getDynamicBatch cfg [] (r :: rest)).1 := by
  have hm : ¬ cfg.maxBatchSize ≤ pending.length := by omega
  have hcut : getDynamicBatch cfg pending (r :: rest) =
      (pending, r :: rest, .shapeReject) := by
    rw [getDynamicBatch]
    simp [hm, hincomp]
  refine ⟨hcut, ?_, ?_⟩
  · exact getDynamicBatch_conserves cfg pending (r :: rest)
  · have h0 : ¬ cfg.maxBatchSize ≤ ([] : List InferenceRequest).length := by
      simp; omega
    have hcr : compatible cfg [] r = true := by simp [compatible]
    have hne : ¬ cfg.maxBatchSize = 0 := by omega
    rw [getDynamicBatch]
    by_cases hp : 1 ∈ cfg.preferredBatchSizes
    · simp [h0, hne, hcr, hp]
    · obtain ⟨t, ht⟩ := getDynamicBatch_extends_pending cfg [r] rest
      simp [h0, hne, hcr, hp, ht]

/-- Witness for C6 at a concrete input: shape enforcement on, pending
payload of shape 0, queued request of shape 1. -/
theorem shape_mismatch_deferred_not_dropped_witness :
    ([⟨0, 0, 0⟩] : List InferenceRequest).length <
      (⟨true, 8, [], 1000, true⟩ : BatchConfig).maxBatchSize ∧
    compatible ⟨true, 8, [], 1000, true⟩ [⟨0, 0, 0⟩] ⟨1, 0, 1⟩ = false ∧
    (getDynamicBatch ⟨true, 8, [], 1000, true⟩ [⟨0, 0, 0⟩]
        [⟨1, 0, 1⟩, ⟨2, 0, 1⟩] =
      ([⟨0, 0, 0⟩], [⟨1, 0, 1⟩, ⟨2, 0, 1⟩], .shapeReject) ∧
    (getDynamicBatch ⟨true, 8, [], 1000, true⟩ [⟨0, 0, 0⟩]
        [⟨1, 0, 1⟩, ⟨2, 0, 1⟩]).1 ++
      (getDynamicBatch ⟨true, 8, [], 1000, true⟩ [⟨0, 0, 0⟩]
        [⟨1, 0, 1⟩, ⟨2, 0, 1⟩]).2.1 =
      [⟨0, 0, 0⟩] ++ ⟨1, 0, 1⟩ :: [⟨2, 0, 1⟩] ∧
    (⟨1, 0, 1⟩ : InferenceRequest) ∈
      (getDynamicBatch ⟨true, 8, [], 1000, true⟩ []
        [⟨1, 0, 1⟩, ⟨2, 0, 1⟩]).1) :=
  ⟨by decide, by decide,
    shape_mismatch_deferred_not_dropped _ _ _ _ (by decide) (by decide)⟩

/-- C3: at a priority level filled to its configured capacity, enqueueing
one more request fails with `QueueFull` under a reject policy; under an
evict policy the oldest request (the level's head) is removed and
completed with a `Timeout` error, and the new request's enqueue
succeeds, joining the tail. -/
theorem enqueue_at_capacity_policy (pol : ModelQueuePolicy)
    (level : List InferenceRequest) (r : InferenceRequest)
    (hfull : level.length = pol.maxQueueSize) :
    (pol.action = .reject →
      levelEnqueue pol level r = .error .QueueFull) ∧
    (∀ v older, pol.action = .evict → level = v :: older →
      levelEnqueue pol level r = .ok (older ++ [r], [(v, .Timeout)])) := by
  have hnl : ¬ level.length < pol.maxQueueSize := by omega
  constructor
  · intro ha
    simp [levelEnqueue, hnl, ha]
  · intro v older ha hl
    subst hl
    simp only [List.length_cons] at hnl
    simp [levelEnqueue, hnl, ha]

/-- Witness for C3 at concrete inputs: a reject level and an evict level,
each at capacity 2. -/
theorem enqueue_at_capacity_policy_witness :
    (([⟨0, 0, 0⟩, ⟨1, 0, 0⟩] : List InferenceRequest).length =
        (⟨2, .reject⟩ : ModelQueuePolicy).maxQueueSize ∧
      ((⟨2, .reject⟩ : ModelQueuePolicy).action = .reject →
        levelEnqueue ⟨2, .reject⟩ [⟨0, 0, 0⟩, ⟨1, 0, 0⟩] ⟨2, 0, 0⟩ =
          .error .QueueFull)) ∧
    (([⟨0, 0, 0⟩, ⟨1, 0, 0⟩] : List InferenceRequest).length =
        (⟨2, .evict⟩ : ModelQueuePolicy).maxQueueSize ∧
      levelEnqueue ⟨2, .evict⟩ [⟨0, 0, 0⟩, ⟨1, 0, 0⟩] ⟨2, 0, 0⟩ =
        .ok ([⟨1, 0, 0⟩] ++ [⟨2, 0, 0⟩], [(⟨0, 0, 0⟩, .Timeout)])) :=
  ⟨⟨by decide,
      (enqueue_at_capacity_policy ⟨2, .reject⟩ _ _ (by decide)).1⟩,
    ⟨by decide,
      (enqueue_at_capacity_policy ⟨2, .evict⟩ _ _ (by decide)).2
        ⟨0, 0, 0⟩ [⟨1, 0, 0⟩] rfl rfl⟩⟩

/-- C7: after `Stop()` every subsequent `Enqueue` fails with
`Unavailable`; and the shutdown pass delivers the response of every
request belonging to an in-flight payload — whether already handed off
for dispatch or still the current payload — so no in-flight response is
dropped. -/
theorem stop_rejects_enqueue_and_finishes_inflight (s : SchedulerState)
    (r : InferenceRequest) :
    Enqueue (Stop s) r = .error .Unavailable ∧
    (∀ p, p ∈ (Stop s).dispatched → ∀ rq, rq ∈ p.requests →
      Outcome.response rq.rid ∈ batcherShutdown (Stop s)) ∧
    (∀ p, (Stop s).curr_payload_ = some p → ∀ rq, rq ∈ p.requests →
      Outcome.response rq.rid ∈ batcherShutdown (Stop s)) := by
  refine ⟨by simp [Enqueue, Stop], ?_, ?_⟩
  · intro p hp rq hrq
    simp only [batcherShutdown, List.mem_append, List.mem_flatten]
    exact Or.inl (Or.inl ⟨finishPayload p, List.mem_map_of_mem _ hp,
      List.mem_map_of_mem _ hrq⟩)
  · intro p hp rq hrq
    simp only [batcherShutdown, List.mem_append, List.mem_flatten, hp]
    exact Or.inl (Or.inr (List.mem_map_of_mem _ hrq))

/-- Witness for C7 at a concrete input: a scheduler with one dispatched
payload and one current payload. -/
theorem stop_rejects_enqueue_and_finishes_inflight_witness :
    Enqueue (Stop ⟨⟨[(⟨4, .reject⟩, [])]⟩, false, some ⟨[⟨1, 0, 0⟩]⟩,
        [⟨[⟨2, 0, 0⟩]⟩], [], 0⟩) ⟨3, 0, 0⟩ = .error .Unavailable ∧
    Outcome.response 2 ∈ batcherShutdown (Stop ⟨⟨[(⟨4, .reject⟩, [])]⟩,
        false, some ⟨[⟨1, 0, 0⟩]⟩, [⟨[⟨2, 0, 0⟩]⟩], [], 0⟩) ∧
    Outcome.response 1 ∈ batcherShutdown (Stop ⟨⟨[(⟨4, .reject⟩, [])]⟩,
        false, some ⟨[⟨1, 0, 0⟩]⟩, [⟨[⟨2, 0, 0⟩]⟩], [], 0⟩) :=
  ⟨(stop_rejects_enqueue_and_finishes_inflight
      ⟨⟨[(⟨4, .reject⟩, [])]⟩, false, some ⟨[⟨1, 0, 0⟩]⟩, [⟨[⟨2, 0, 0⟩]⟩],
        [], 0⟩ ⟨3, 0, 0⟩).1,
    (stop_rejects_enqueue_and_finishes_inflight
      ⟨⟨[(⟨4, .reject⟩, [])]⟩, false, some ⟨[⟨1, 0, 0⟩]⟩, [⟨[⟨2, 0, 0⟩]⟩],
        [], 0⟩ ⟨3, 0, 0⟩).2.1
      ⟨[⟨2, 0, 0⟩]⟩ (by decide) ⟨2, 0, 0⟩ (by decide),
    (stop_rejects_enqueue_and_finishes_inflight
      ⟨⟨[(⟨4, .reject⟩, [])]⟩, false, some ⟨[⟨1, 0, 0⟩]⟩, [⟨[⟨2, 0, 0⟩]⟩],
        [], 0⟩ ⟨3, 0, 0⟩).2.2
      ⟨[⟨1, 0, 0⟩]⟩ rfl ⟨1, 0, 0⟩ (by decide)⟩

/-- C8: with `max_batch_size_ == 0` (batching disabled) every
payload-construction round on a non-empty queue produces a payload of
exactly the single front request, dispatched immediately at every clock
value — no delay-budget wait and no preferred-size accumulation — and an
empty queue produces no payload at all. -/
theorem disabled_batching_single_request (cfg : BatchConfig)
    (r : InferenceRequest) (rest : List InferenceRequest)
    (hdis : cfg.maxBatchSize = 0) (firstJoinNs nowNs : Nat) :
    nextPayloadRound cfg (r :: rest) firstJoinNs nowNs =
      some ([r], rest, true) ∧
    nextPayloadRound cfg [] firstJoinNs nowNs = none := by
  simp [nextPayloadRound, hdis]

/-- Witness for C8 at a concrete input. -/
theorem disabled_batching_single_request_witness :
    (⟨true, 0, [4], 1000, false⟩ : BatchConfig).maxBatchSize = 0 ∧
    (nextPayloadRound ⟨true, 0, [4], 1000, false⟩
        [⟨0, 0, 0⟩, ⟨1, 0, 0⟩] 7 7 = some ([⟨0, 0, 0⟩], [⟨1, 0, 0⟩], true) ∧
    nextPayloadRound ⟨true, 0, [4], 1000, false⟩ [] 7 7 = none) :=
  ⟨by decide,
    disabled_batching_single_request _ ⟨0, 0, 0⟩ [⟨1, 0, 0⟩] (by decide) 7 7⟩

/-- C9: `InflightInferenceCount` returns `queue_.Size() +
curr_payload_->RequestCount()` when a current payload exists and
`queue_.Size()` when it is null, and it is independent of the payloads
already handed off for dispatch. -/
theorem inflight_count_counts_queue_and_current_payload
    (s : SchedulerState) :
    (∀ p, s.curr_payload_ = some p →
      InflightInferenceCount s = s.queue_.Size + p.RequestCount) ∧
    (s.curr_payload_ = none →
      InflightInferenceCount s = s.queue_.Size) ∧
    (∀ ds, InflightInferenceCount { s with dispatched := ds } =
      InflightInferenceCount s) := by
  refine ⟨?_, ?_, ?_⟩
  · intro p hp
    simp [InflightInferenceCount, hp]
  · intro hp
    simp [InflightInferenceCount, hp]
  · intro ds
    rfl

/-- Witness for C9 at concrete inputs: a state with a current payload of
two requests and one queued request, and a state with no current
payload. -/
theorem inflight_count_counts_queue_and_current_payload_witness :
    InflightInferenceCount ⟨⟨[(⟨4, .reject⟩, [⟨0, 0, 0⟩])]⟩, false,
        some ⟨[⟨1, 0, 0⟩, ⟨2, 0, 0⟩]⟩, [], [], 0⟩ =
      PriorityQueue.Size ⟨[(⟨4, .reject⟩, [⟨0, 0, 0⟩])]⟩ +
        Payload.RequestCount ⟨[⟨1, 0, 0⟩, ⟨2, 0, 0⟩]⟩ ∧
    InflightInferenceCount ⟨⟨[(⟨4, .reject⟩, [⟨0, 0, 0⟩])]⟩, false,
        none, [], [], 0⟩ =
      PriorityQueue.Size ⟨[(⟨4, .reject⟩, [⟨0, 0, 0⟩])]⟩ ∧
    InflightInferenceCount ⟨⟨[(⟨4, .reject⟩, [⟨0, 0, 0⟩])]⟩, false,
        none, [⟨[⟨9, 0, 0⟩]⟩], [], 0⟩ =
      InflightInferenceCount ⟨⟨[(⟨4, .reject⟩, [⟨0, 0, 0⟩])]⟩, false,
        none, [], [], 0⟩ :=
  ⟨(inflight_count_counts_queue_and_current_payload _).1
      ⟨[⟨1, 0, 0⟩, ⟨2, 0, 0⟩]⟩ rfl,
    (inflight_count_counts_queue_and_current_payload _).2.1 rfl,
    (inflight_count_counts_queue_and_current_payload
      ⟨⟨[(⟨4, .reject⟩, [⟨0, 0, 0⟩])]⟩, false, none, [], [], 0⟩).2.2
      [⟨[⟨9, 0, 0⟩]⟩]⟩

/-- C10: `Stop()` writes only the stop flag: the priority queue, the
current payload, the dispatched payloads, the completion buffer, and the
count of condition-variable notifications are all unchanged — in
particular no notification is issued on `cv_`, so a batcher thread
blocked on `cv_` with an empty queue is not woken by `Stop()` itself. -/
theorem stop_only_sets_stop_flag (s : SchedulerState) :
    (Stop s).stop_ = true ∧
    (Stop s).queue_ = s.queue_ ∧
    (Stop s).curr_payload_ = s.curr_payload_ ∧
    (Stop s).dispatched = s.dispatched ∧
    (Stop s).completion_queue_ = s.completion_queue_ ∧
    (Stop s).cvNotifyCount = s.cvNotifyCount := by
  simp [Stop]

end DynBatch
